import Mathlib

/-!
Verification of the hybrid multi-vector retrieval core of Exploring_GraphRAG:
query classification (`src/retrieval/query_classifier.py`), rank fusion and
content boosting (`src/retrieval/hybrid_retriever.py`), and the reranker's
neutral-score fallbacks (`src/retrieval/reranker.py`).

Scores are modelled as rationals (Python floats, exact arithmetic here);
Python dicts that preserve insertion order are modelled as association lists;
Python's stable `sorted(..., reverse=True)` is modelled by `List.mergeSort`
with a `score`-descending comparator, which is likewise stable.
-/

namespace GraphRAG

/-- A fiscal-year payload value: either an integer or a raw string
(Python's payload field may carry either). -/
inductive FY where
  | num : Int → FY
  | str : String → FY
deriving DecidableEq

/-- Python truthiness of a fiscal-year value (`if not fiscal_year`). -/
def FY.truthy : FY → Bool
  | .num n => n != 0
  | .str s => !s.isEmpty

/-- Digit-run accumulator for `pyToInt?`; `none` on any non-digit. -/
def parseDigits (acc : ℕ) : List Char → Option ℕ
  | [] => some acc
  | c :: cs => if c.isDigit then parseDigits (acc * 10 + (c.toNat - 48)) cs else none

/-- Python's built-in `int(...)` on a string: optional surrounding
whitespace, optional sign, at least one digit; anything else raises
`ValueError`, modelled as `none`. -/
def pyToInt? (s : String) : Option Int :=
  let cs := (s.toList.dropWhile Char.isWhitespace).reverse.dropWhile Char.isWhitespace
  match cs.reverse with
  | [] => none
  | '-' :: rest =>
    match rest with
    | [] => none
    | _ => (parseDigits 0 rest).map (fun n => -(n : Int))
  | '+' :: rest =>
    match rest with
    | [] => none
    | _ => (parseDigits 0 rest).map (fun n => (n : Int))
  | rest => (parseDigits 0 rest).map (fun n => (n : Int))

/-- Python `int(fiscal_year)` conversion: integers pass through, strings are
parsed, failure is `none` (the `ValueError`/`TypeError` branch). -/
def FY.toIntOpt : FY → Option Int
  | .num n => some n
  | .str s => pyToInt? s

/-- The payload fields read by the retrieval core. -/
structure Payload where
  has_table : Bool
  has_chart : Bool
  chunk_type : Option String
  colbert_tokens : Option (List (List ℚ))
  fiscal_year : Option FY
  neo4j_node_ids : List String
deriving DecidableEq

/-- A payload with every optional field absent and every flag false. -/
def emptyPayload : Payload :=
  Payload.mk false false none none none []

/-- One scored retrieval candidate: point id, score, payload. -/
structure Result where
  id : ℕ
  score : ℚ
  payload : Payload
deriving DecidableEq

/-! ### Python string primitives used by the query classifier -/

/-- Boolean list-starts-with, on characters. -/
def isPrefixOfB : List Char → List Char → Bool
  | [], _ => true
  | _ :: _, [] => false
  | a :: as, b :: bs => a == b && isPrefixOfB as bs

/-- Python's substring test `needle in hay`. -/
def strIn (needle : List Char) : List Char → Bool
  | [] => needle.isEmpty
  | b :: bs => isPrefixOfB needle (b :: bs) || strIn needle bs

/-- Python's `str.isupper()`: at least one cased character, and every cased
character uppercase (ASCII model). -/
def pyIsUpper (w : List Char) : Bool :=
  w.any Char.isAlpha && w.all (fun c => !c.isAlpha || c.isUpper)

/-- Helper for `wordsOf`: split on whitespace runs, discarding empties. -/
def wordsAux (acc : List Char) : List Char → List (List Char)
  | [] => if acc.isEmpty then [] else [acc.reverse]
  | c :: cs =>
    if c.isWhitespace then
      if acc.isEmpty then wordsAux [] cs else acc.reverse :: wordsAux [] cs
    else wordsAux (c :: acc) cs

/-- Python's no-argument `str.split()`. -/
def wordsOf (s : List Char) : List (List Char) := wordsAux [] s

/-- Python's `str.lower()` (ASCII model), on a `String`. -/
def lowerOf (q : String) : List Char := q.toList.map Char.toLower

/-! ### QueryClassifier (`src/retrieval/query_classifier.py`) -/

/-- `QueryClassifier.keyword_indicators`: tickers, filing types, acronyms. -/
def keyword_indicators : List (List Char) :=
  ["AAPL", "MSFT", "TSLA", "NVDA", "GOOGL", "AMZN",
   "10-K", "10-Q", "8-K",
   "EPS", "EBITDA", "GAAP"].map String.toList

/-- `QueryClassifier.semantic_words`. -/
def semantic_words : List (List Char) :=
  ["what", "how", "why", "explain", "describe",
   "discuss", "summarize", "overview"].map String.toList

/-- `QueryClassifier.analytical_words`. -/
def analytical_words : List (List Char) :=
  ["compare", "analyze", "relationship", "trend",
   "between", "versus", "vs", "difference", "correlation"].map String.toList

/-- `QueryClassifier._calculate_keyword_score` (the `query_lower` parameter is
unused in the source as well). -/
def calculate_keyword_score (query _query_lower : List Char) : ℚ :=
  let score1 : ℚ :=
    if (keyword_indicators.take 6).any (fun t => strIn t query) then 0.4 else 0
  let score2 : ℚ := score1 +
    (if (["10-K", "10-Q", "8-K"].map String.toList).any (fun t => strIn t query)
      then 0.3 else 0)
  let score3 : ℚ := score2 +
    (if (keyword_indicators.drop 9).any (fun t => strIn t query) then 0.2 else 0)
  let caps_words := (wordsOf query).filter (fun w => pyIsUpper w && w.length > 1)
  let score4 : ℚ := score3 +
    (if !caps_words.isEmpty then 0.1 * ((min caps_words.length 3 : ℕ) : ℚ) else 0)
  let score5 : ℚ := score4 + (if strIn ['\"'] query then 0.3 else 0)
  min score5 1

/-- `QueryClassifier._calculate_semantic_score`. -/
def calculate_semantic_score (query_lower : List Char) : ℚ :=
  let score1 : ℚ :=
    semantic_words.foldl (fun sc w => if strIn w query_lower then sc + 0.15 else sc) 0
  let word_count := (wordsOf query_lower).length
  let score2 : ℚ := score1 +
    (if word_count > 8 then 0.3 else if word_count > 5 then 0.15 else 0)
  let score3 : ℚ := score2 + (if strIn ['?'] query_lower then 0.2 else 0)
  min score3 1

/-- `QueryClassifier._calculate_analytical_score`. -/
def calculate_analytical_score (query_lower : List Char) : ℚ :=
  let score1 : ℚ :=
    analytical_words.foldl (fun sc w => if strIn w query_lower then sc + 0.2 else sc) 0
  let score2 : ℚ := score1 +
    (if strIn " and ".toList query_lower || strIn " , ".toList query_lower
      then 0.15 else 0)
  let score3 : ℚ := score2 + (if query_lower.count ',' ≥ 2 then 0.1 else 0)
  min score3 1

/-- `QueryClassifier._determine_query_type`. -/
def determine_query_type (sparse_weight dense_weight colbert_weight : ℚ) : String :=
  if sparse_weight > 0.5 then "keyword_heavy"
  else if dense_weight > 0.5 then "semantic_heavy"
  else if colbert_weight > 0.4 then "analytical_heavy"
  else "balanced"

/-- The dictionary returned by `QueryClassifier.classify` (the nested
`scores` dict is flattened into the three `*_score` fields). -/
structure QueryStrategy where
  sparse_weight : ℚ
  dense_weight : ℚ
  colbert_weight : ℚ
  fusion_method : String
  query_type : String
  keyword_score : ℚ
  semantic_score : ℚ
  analytical_score : ℚ
deriving DecidableEq

/-- `QueryClassifier.classify`. -/
def classify (q : String) : QueryStrategy :=
  let query := q.toList
  let query_lower := lowerOf q
  let keyword_score := calculate_keyword_score query query_lower
  let semantic_score := calculate_semantic_score query_lower
  let analytical_score := calculate_analytical_score query_lower
  let total0 := keyword_score + semantic_score + analytical_score
  let total : ℚ := if total0 = 0 then 1.0 else total0
  let sparse_weight := keyword_score / total
  let dense_weight := semantic_score / total
  let colbert_weight := analytical_score / total
  let fusion_method := if analytical_score > 0.3 then "weighted" else "rrf"
  let query_type := determine_query_type sparse_weight dense_weight colbert_weight
  QueryStrategy.mk sparse_weight dense_weight colbert_weight fusion_method
    query_type keyword_score semantic_score analytical_score

/-- The content-boost dictionary `{table, chart, text}`. -/
structure Boosts where
  table : ℚ
  chart : ℚ
  text : ℚ
deriving DecidableEq

/-- Table-indicator keywords of `QueryClassifier.get_content_boost`. -/
def table_keywords : List (List Char) :=
  ["breakdown", "details", "by segment", "quarterly",
   "annual", "table", "data", "figures"].map String.toList

/-- Chart-indicator keywords of `QueryClassifier.get_content_boost`. -/
def chart_keywords : List (List Char) :=
  ["trend", "over time", "growth", "chart", "graph",
   "visual", "show me"].map String.toList

/-- Text-indicator keywords of `QueryClassifier.get_content_boost`. -/
def text_keywords : List (List Char) :=
  ["explain", "describe", "discuss", "narrative",
   "strategy", "overview"].map String.toList

/-- `QueryClassifier.get_content_boost`. -/
def get_content_boost (q : String) : Boosts :=
  let query_lower := lowerOf q
  Boosts.mk
    (if table_keywords.any (fun kw => strIn kw query_lower) then 0.4 else 0)
    (if chart_keywords.any (fun kw => strIn kw query_lower) then 0.3 else 0)
    (if text_keywords.any (fun kw => strIn kw query_lower) then 0.2 else 0)

/-! ### HybridRetriever (`src/retrieval/hybrid_retriever.py`) -/

/-- `HybridRetriever.__init__`: `self.rrf_k = config.get("rrf_k", 60)`. -/
def retriever_rrf_k (config_rrf_k : Option ℚ) : ℚ := config_rrf_k.getD 60

/-- The score-descending comparator used by every
`sort(key=lambda x: x["score"], reverse=True)` in the source.  Python's sort
is stable, as is `List.mergeSort`. -/
def scoreDesc (a b : Result) : Bool := decide (b.score ≤ a.score)

/-- Add `inc` to the score of the entry with key `id`, leave others alone. -/
def bump (id : ℕ) (inc : ℚ) (e : Result) : Result :=
  if e.id == id then Result.mk e.id (e.score + inc) e.payload else e

/-- One accumulation step on the insertion-ordered dict `scores`:
if the id is absent, insert it with score `0.0` and the payload of the
current result, then add `inc` to its score.  (Net effect on a fresh id:
score `inc`, first-seen payload, appended at the end.) -/
def dictAdd (m : List Result) (id : ℕ) (inc : ℚ) (pl : Payload) : List Result :=
  if m.any (fun e => e.id == id) then m.map (bump id inc)
  else m ++ [Result.mk id inc pl]

/-- The inner loop of `_reciprocal_rank_fusion`:
`for rank, result in enumerate(results, start=1)` adding `1/(k + rank)`. -/
def rrfProcess (k : ℚ) : ℕ → List Result → List Result → List Result
  | _, [], m => m
  | rank, r :: rs, m => rrfProcess k (rank + 1) rs (dictAdd m r.id (1 / (k + rank)) r.payload)

/-- The `scores` dict of `_reciprocal_rank_fusion` after the three lists are
processed in order dense, sparse, colbert. -/
def rrfDict (k : ℚ) (dense_results sparse_results colbert_results : List Result) : List Result :=
  rrfProcess k 1 colbert_results (rrfProcess k 1 sparse_results (rrfProcess k 1 dense_results []))

/-- `HybridRetriever._reciprocal_rank_fusion`. -/
def reciprocal_rank_fusion (k : ℚ) (dense_results sparse_results colbert_results : List Result)
    (top_k : ℕ) : List Result :=
  ((rrfDict k dense_results sparse_results colbert_results).mergeSort scoreDesc).take top_k

/-- Score lookup in the accumulator dict (first entry with the given id). -/
def scoreOf (m : List Result) (id : ℕ) : Option ℚ :=
  (m.find? (fun e => e.id == id)).map Result.score

/-- Total contribution of candidate `id` in one ranked list whose first
element has rank `rank`: the sum of `1/(k + r)` over its occurrences. -/
def rrfContrib (k : ℚ) (id : ℕ) : ℕ → List Result → ℚ
  | _, [] => 0
  | rank, r :: rs => (if r.id = id then 1 / (k + rank) else 0) + rrfContrib k id (rank + 1) rs

/-- Modelled from the spec: the contribution of a candidate to its RRF
accumulator from one list is `1/(k + r)` with `r` its 1-based rank in the
list, and `0` when the list does not contain it. -/
def specListContrib (k : ℚ) (id : ℕ) (l : List Result) : ℚ :=
  match (l.map Result.id).indexOf? id with
  | none => 0
  | some i => 1 / (k + (i + 1 : ℕ))

/-- Modelled from the spec: the RRF accumulator of a candidate is the sum of
its per-list contributions over the three input lists. -/
def specRRFScore (k : ℚ) (id : ℕ) (dense_results sparse_results colbert_results : List Result) : ℚ :=
  specListContrib k id dense_results + specListContrib k id sparse_results +
    specListContrib k id colbert_results

/-- The inner `normalize_scores` of `_weighted_fusion`: min-max normalization
of one channel (empty list handled first; zero range replaced by `1.0`). -/
def normalize_scores (results : List Result) : List Result :=
  match results with
  | [] => []
  | r :: rs =>
    let max_score := (rs.map Result.score).foldl max r.score
    let min_score := (rs.map Result.score).foldl min r.score
    let score_range : ℚ := if max_score - min_score = 0 then 1 else max_score - min_score
    (r :: rs).map (fun x => Result.mk x.id ((x.score - min_score) / score_range) x.payload)

/-- The accumulation loop of `_weighted_fusion` for one normalized channel
with weight `w`: each entry contributes `score * w`. -/
def wAcc (m : List Result) (entries : List Result) (w : ℚ) : List Result :=
  entries.foldl (fun acc e => dictAdd acc e.id (e.score * w) e.payload) m

/-- `HybridRetriever._weighted_fusion` (`weights` is zipped against the three
normalized channels, exactly as in the source). -/
def weighted_fusion (dense_results sparse_results colbert_results : List Result)
    (weights : List ℚ) (top_k : ℕ) : List Result :=
  let dense_norm := normalize_scores dense_results
  let sparse_norm := normalize_scores sparse_results
  let colbert_norm := normalize_scores colbert_results
  let combined := (List.zip [dense_norm, sparse_norm, colbert_norm] weights).foldl
    (fun m lw => wAcc m lw.1 lw.2) []
  (combined.mergeSort scoreDesc).take top_k

/-- The per-candidate body of `_apply_content_boost`: multiply by
`(1 + boost)` for table, then chart, then text (default chunk type "text"). -/
def content_boost_one (boosts : Boosts) (result : Result) : Result :=
  let s1 := if result.payload.has_table && decide (boosts.table > 0)
    then result.score * (1 + boosts.table) else result.score
  let s2 := if result.payload.has_chart && decide (boosts.chart > 0)
    then s1 * (1 + boosts.chart) else s1
  let chunk_type := result.payload.chunk_type.getD "text"
  let s3 := if chunk_type == "text" && decide (boosts.text > 0)
    then s2 * (1 + boosts.text) else s2
  Result.mk result.id s3 result.payload

/-- `HybridRetriever._apply_content_boost`: boost every result, then re-sort
by the new score descending. -/
def apply_content_boost (results : List Result) (boosts : Boosts) : List Result :=
  (results.map (content_boost_one boosts)).mergeSort scoreDesc

/-- Dot product of two token vectors (`np.dot` row). -/
def dotp (u v : List ℚ) : ℚ := (List.zipWith (fun a b => a * b) u v).sum

/-- `np.max` over one row of the similarity matrix. -/
def rowMax : List ℚ → ℚ
  | [] => 0
  | s :: ss => ss.foldl max s

/-- `HybridRetriever._compute_maxsim`: for each query token the maximum
dot-product similarity against any document token, summed over query tokens. -/
def compute_maxsim (query_tokens doc_tokens : List (List ℚ)) : ℚ :=
  (query_tokens.map (fun q => rowMax (doc_tokens.map (fun d => dotp q d)))).sum

/-- `query_embeddings.mean(axis=0)`: component-wise mean of the token
vectors. -/
def meanVec : List (List ℚ) → List ℚ
  | [] => []
  | t :: ts => (ts.foldl (List.zipWith (fun a b => a + b)) t).map
      (fun x => x / ((ts.length + 1 : ℕ) : ℚ))

/-- Does a candidate carry a non-empty `colbert_tokens` payload field
(Python truthiness of `payload.get("colbert_tokens")`)? -/
def scorable (c : Result) : Bool := !(c.payload.colbert_tokens.getD []).isEmpty

/-- The per-candidate body of `_colbert_search`'s second stage: candidates
whose payload stores non-empty `colbert_tokens` are re-scored by MaxSim,
all others are silently dropped (`none`).  The external first-stage dense
search (`self.qdrant.search_dense`) is abstracted as a function argument of
`colbert_search`. -/
def colbert_rescore (query_embeddings : List (List ℚ)) (candidate : Result) :
    Option Result :=
  let doc_colbert := candidate.payload.colbert_tokens.getD []
  if doc_colbert.isEmpty then none
  else some (Result.mk candidate.id
    (compute_maxsim query_embeddings doc_colbert) candidate.payload)

/-- `HybridRetriever._colbert_search` assembled: first-stage dense retrieval
on the mean-pooled query vector with a `limit * 2` pool, MaxSim re-scoring,
descending sort, truncation. -/
def colbert_search (search_dense : List ℚ → ℕ → List Result)
    (query_embeddings : List (List ℚ)) (limit : ℕ) : List Result :=
  let query_dense := meanVec query_embeddings
  let candidates := search_dense query_dense (limit * 2)
  let scored_results := candidates.filterMap (colbert_rescore query_embeddings)
  (scored_results.mergeSort scoreDesc).take limit

/-! ### Reranker (`src/retrieval/reranker.py`) -/

/-- The graph context passed to the reranker: the `relationships` list
(each relationship modelled by its string rendering `str(rel)`). -/
structure GraphContext where
  relationships : List String
deriving DecidableEq

/-- Python substring test on `String`s. -/
def strInS (needle hay : String) : Bool := strIn needle.toList hay.toList

/-- `Reranker._calculate_graph_score`: `0.5` without graph context, `0.3`
for unlinked candidates, otherwise the relationship count over a fixed cap
of 10, clamped to 1. -/
def calculate_graph_score (result : Result) (graph_context : Option GraphContext) : ℚ :=
  match graph_context with
  | none => 0.5
  | some gc =>
    let neo4j_ids := result.payload.neo4j_node_ids
    if neo4j_ids.isEmpty then 0.3
    else
      let rel_count := gc.relationships.countP
        (fun rel => neo4j_ids.any (fun node_id => strInS node_id rel))
      min ((rel_count : ℚ) / 10) 1

/-- `Reranker._calculate_temporal_score`, with `math.exp` abstracted as the
function `exp` (the claims only concern branches that never call it):
`0.5` when `fiscal_year` is missing, falsy, or unparsable, otherwise the
clamped exponential decay `exp(-0.1 * age)`. -/
def calculate_temporal_score (exp : ℚ → ℚ) (payload : Payload) (current_year : Int) : ℚ :=
  match payload.fiscal_year with
  | none => 0.5
  | some fy =>
    if !fy.truthy then 0.5
    else
      match fy.toIntOpt with
      | none => 0.5
      | some y =>
        let age : Int := current_year - y
        let score := exp (-(0.1) * (age : ℚ))
        max (min score 1) 0

/-- Replace every raw score in a ranked list by its image under `f`
(ids and payloads untouched): the "order-preserving transformation" of the
rank-only property. -/
def map_scores (f : ℚ → ℚ) (l : List Result) : List Result :=
  l.map (fun r => Result.mk r.id (f r.score) r.payload)

/-- The same candidate with its payload's `chunk_type` set to `"text"`
explicitly. -/
def setChunkText (r : Result) : Result :=
  Result.mk r.id r.score
    (Payload.mk r.payload.has_table r.payload.has_chart (some "text")
      r.payload.colbert_tokens r.payload.fiscal_year r.payload.neo4j_node_ids)

/-- The accumulator entries produced by one RRF pass over a fresh list:
entry `i` carries score `1/(k + rank + i)`. -/
def rrfPass (k : ℚ) : ℕ → List Result → List Result
  | _, [] => []
  | rank, r :: rs => Result.mk r.id (1 / (k + rank)) r.payload :: rrfPass k (rank + 1) rs

/-- Total contribution of candidate `id` in one weighted-fusion pass over a
normalized channel: the sum of `score * w` over its occurrences. -/
def wContrib (id : ℕ) (w : ℚ) : List Result → ℚ
  | [] => 0
  | e :: es => (if e.id = id then e.score * w else 0) + wContrib id w es

/-! ### Lemmas about the insertion-ordered accumulator dict -/

theorem bump_id (id : ℕ) (inc : ℚ) (e : Result) : (bump id inc e).id = e.id := by
  unfold bump
  split <;> rfl

theorem bump_score (id : ℕ) (inc : ℚ) (e : Result) :
    (bump id inc e).score = if e.id = id then e.score + inc else e.score := by
  unfold bump
  by_cases h : e.id = id <;> simp [h]

theorem keys_map_bump (m : List Result) (id : ℕ) (inc : ℚ) :
    (m.map (bump id inc)).map Result.id = m.map Result.id := by
  rw [List.map_map]
  exact List.map_congr_left (fun e _ => bump_id id inc e)

theorem keys_dictAdd (m : List Result) (id : ℕ) (inc : ℚ) (pl : Payload) :
    (dictAdd m id inc pl).map Result.id =
      if m.any (fun e => e.id == id) then m.map Result.id
      else m.map Result.id ++ [id] := by
  unfold dictAdd
  split
  · simpa using keys_map_bump m id inc
  · simp

theorem any_key_iff (m : List Result) (id : ℕ) :
    m.any (fun e => e.id == id) = true ↔ id ∈ m.map Result.id := by
  rw [List.any_eq_true]
  constructor
  · rintro ⟨e, he, heq⟩
    exact List.mem_map.2 ⟨e, he, by simpa using heq⟩
  · intro h
    rcases List.mem_map.1 h with ⟨e, he, hid⟩
    exact ⟨e, he, by simp [hid]⟩

theorem mem_keys_dictAdd {m : List Result} {id id' : ℕ} {inc : ℚ} {pl : Payload} :
    id' ∈ (dictAdd m id inc pl).map Result.id ↔ id' ∈ m.map Result.id ∨ id' = id := by
  rw [keys_dictAdd]
  by_cases hany : m.any (fun e => e.id == id) = true
  · rw [if_pos hany]
    have hid : id ∈ m.map Result.id := (any_key_iff m id).1 hany
    constructor
    · exact Or.inl
    · rintro (h' | rfl)
      · exact h'
      · exact hid
  · rw [if_neg hany]
    simp

theorem nodup_keys_dictAdd {m : List Result} {id : ℕ} {inc : ℚ} {pl : Payload}
    (h : (m.map Result.id).Nodup) : ((dictAdd m id inc pl).map Result.id).Nodup := by
  rw [keys_dictAdd]
  by_cases hany : m.any (fun e => e.id == id) = true
  · rw [if_pos hany]
    exact h
  · rw [if_neg hany]
    have hid : id ∉ m.map Result.id := fun hc => hany ((any_key_iff m id).2 hc)
    simp [List.nodup_append, h, hid]

theorem find?_key_map_bump (m : List Result) (id id' : ℕ) (inc : ℚ) :
    (m.map (bump id inc)).find? (fun e => e.id == id') =
      (m.find? (fun e => e.id == id')).map (bump id inc) := by
  rw [List.find?_map]
  have hfe : ((fun e : Result => e.id == id') ∘ bump id inc) = (fun e : Result => e.id == id') := by
    funext e
    simp [Function.comp, bump_id]
  rw [hfe]

theorem scoreOf_dictAdd (m : List Result) (id id' : ℕ) (inc : ℚ) (pl : Payload) :
    scoreOf (dictAdd m id inc pl) id' =
      if id' = id then some ((scoreOf m id').getD 0 + inc) else scoreOf m id' := by
  unfold dictAdd scoreOf
  by_cases hany : m.any (fun e => e.id == id) = true
  · rw [if_pos hany, find?_key_map_bump]
    cases hfind : m.find? (fun e => e.id == id') with
    | none =>
      have hnotmem : id' ∉ m.map Result.id := by
        intro hc
        rcases List.mem_map.1 hc with ⟨e, he, hid⟩
        have := (List.find?_eq_none.1 hfind) e he
        simp [hid] at this
      have hne : id' ≠ id := fun hc => hnotmem (hc ▸ (any_key_iff m id).1 hany)
      simp [hne]
    | some e0 =>
      have he0 := List.find?_some hfind
      have hid0 : e0.id = id' := by simpa using he0
      by_cases hii : id' = id
      · subst hii
        simp [bump_score, hid0]
      · simp [bump_score, hid0, hii]
  · rw [if_neg hany]
    have hnone : m.find? (fun e => e.id == id) = none := by
      rw [List.find?_eq_none]
      intro e he hc
      exact hany (List.any_eq_true.2 ⟨e, he, hc⟩)
    rw [List.find?_append]
    by_cases hii : id' = id
    · subst hii
      simp [hnone]
    · have hnew : ((Result.mk id inc pl).id == id') = false := by
        simpa using fun hc => hii hc.symm
      cases hfind : m.find? (fun e => e.id == id') with
      | none => simp [hnew, hii]
      | some e0 => simp [hii]
theorem rrfContrib_eq_zero (k : ℚ) (id : ℕ) (l : List Result)
    (h : id ∉ l.map Result.id) : ∀ rank : ℕ, rrfContrib k id rank l = 0 := by
  induction l with
  | nil => intro rank; rfl
  | cons r rs ih =>
    intro rank
    have h1 : ¬ (r.id = id) := by
      intro hc
      exact h (by simp [hc])
    have h2 : id ∉ rs.map Result.id := by
      intro hc
      exact h (by simp [hc])
    simp only [rrfContrib, if_neg h1]
    rw [ih h2 (rank + 1)]
    ring

theorem scoreOf_rrfProcess (k : ℚ) (id : ℕ) (l : List Result) :
    ∀ (rank : ℕ) (m : List Result),
    scoreOf (rrfProcess k rank l m) id =
      if id ∈ l.map Result.id then some ((scoreOf m id).getD 0 + rrfContrib k id rank l)
      else scoreOf m id := by
  induction l with
  | nil => intro rank m; simp [rrfProcess]
  | cons r rs ih =>
    intro rank m
    simp only [rrfProcess]
    rw [ih (rank + 1) (dictAdd m r.id (1 / (k + (rank : ℚ))) r.payload)]
    rw [scoreOf_dictAdd]
    by_cases hid : id = r.id
    · have hmem0 : id ∈ (r :: rs).map Result.id := by simp [hid]
      rw [if_pos hid, if_pos hmem0]
      by_cases hmem : id ∈ rs.map Result.id
      · rw [if_pos hmem]
        simp only [Option.getD_some, rrfContrib, if_pos hid.symm]
        congr 1
        ring
      · rw [if_neg hmem]
        simp only [rrfContrib, if_pos hid.symm]
        rw [rrfContrib_eq_zero k id rs hmem (rank + 1)]
        congr 1
        ring
    · rw [if_neg hid]
      simp only [List.map_cons, List.mem_cons]
      by_cases hmem : id ∈ rs.map Result.id
      · rw [if_pos hmem, if_pos (Or.inr hmem)]
        have hcon : rrfContrib k id rank (r :: rs) = rrfContrib k id (rank + 1) rs := by
          simp only [rrfContrib]
          rw [if_neg (fun hc => hid hc.symm)]
          ring
        rw [hcon]
      · rw [if_neg hmem, if_neg (by rintro (hc | hc) <;> [exact hid hc; exact hmem hc])]

theorem mem_keys_rrfProcess (k : ℚ) (l : List Result) :
    ∀ (rank : ℕ) (m : List Result) (id : ℕ),
    id ∈ (rrfProcess k rank l m).map Result.id ↔
      id ∈ m.map Result.id ∨ id ∈ l.map Result.id := by
  induction l with
  | nil => intro rank m id; simp [rrfProcess]
  | cons r rs ih =>
    intro rank m id
    simp only [rrfProcess]
    rw [ih]
    rw [mem_keys_dictAdd]
    simp only [List.map_cons, List.mem_cons]
    tauto

theorem nodup_keys_rrfProcess (k : ℚ) (l : List Result) :
    ∀ (rank : ℕ) (m : List Result),
    (m.map Result.id).Nodup → ((rrfProcess k rank l m).map Result.id).Nodup := by
  induction l with
  | nil => intro rank m h; simpa [rrfProcess] using h
  | cons r rs ih =>
    intro rank m h
    simp only [rrfProcess]
    exact ih _ _ (nodup_keys_dictAdd h)

theorem rrfContrib_eq_indexOf (k : ℚ) (id : ℕ) (l : List Result)
    (h : (l.map Result.id).Nodup) :
    ∀ rank : ℕ, rrfContrib k id rank l =
      match (l.map Result.id).indexOf? id with
      | none => 0
      | some i => 1 / (k + ((rank + i : ℕ) : ℚ)) := by
  induction l with
  | nil => intro rank; rfl
  | cons r rs ih =>
    intro rank
    simp only [List.map_cons] at h ⊢
    rw [List.indexOf?_cons]
    rcases List.nodup_cons.1 h with ⟨hr, hrs⟩
    by_cases hid : r.id = id
    · rw [if_pos (by simpa using hid)]
      simp only [rrfContrib, if_pos hid]
      rw [rrfContrib_eq_zero k id rs (hid ▸ hr) (rank + 1)]
      simp
    · rw [if_neg (by simpa using hid)]
      simp only [rrfContrib, if_neg hid]
      rw [ih hrs (rank + 1)]
      cases hidx : (rs.map Result.id).indexOf? id with
      | none => simp
      | some i =>
        simp only [Option.map_some]
        have : rank + 1 + i = rank + (i + 1) := by omega
        rw [this]
        simp [Nat.succ_eq_add_one]

theorem specListContrib_eq_rrfContrib (k : ℚ) (id : ℕ) (l : List Result)
    (h : (l.map Result.id).Nodup) :
    specListContrib k id l = rrfContrib k id 1 l := by
  rw [rrfContrib_eq_indexOf k id l h 1]
  unfold specListContrib
  cases hidx : (l.map Result.id).indexOf? id with
  | none => rfl
  | some i =>
    show (1 : ℚ) / (k + ((i + 1 : ℕ) : ℚ)) = 1 / (k + ((1 + i : ℕ) : ℚ))
    have hn : i + 1 = 1 + i := by omega
    rw [hn]

theorem specListContrib_eq_zero (k : ℚ) (id : ℕ) (l : List Result)
    (h : id ∉ l.map Result.id) : specListContrib k id l = 0 := by
  unfold specListContrib
  have : (l.map Result.id).indexOf? id = none := by
    rw [List.indexOf?_eq_none_iff]
    intro x hx hc
    have hxid : x = id := by simpa using hc
    exact h (hxid ▸ hx)
  rw [this]

theorem find?_key_of_nodup_mem {m : List Result} (h : (m.map Result.id).Nodup)
    {r : Result} (hr : r ∈ m) : m.find? (fun e => e.id == r.id) = some r := by
  induction m with
  | nil => cases hr
  | cons e es ih =>
    simp only [List.map_cons, List.nodup_cons] at h
    rcases List.mem_cons.1 hr with rfl | hr'
    · rw [List.find?_cons_of_pos _ (by simp)]
    · have hne : e.id ≠ r.id := by
        intro hc
        exact h.1 (hc ▸ List.mem_map.2 ⟨r, hr', rfl⟩)
      rw [List.find?_cons_of_neg _ (by simpa using hne)]
      exact ih h.2 hr'

theorem scoreOf_of_nodup_mem {m : List Result} (h : (m.map Result.id).Nodup)
    {r : Result} (hr : r ∈ m) : scoreOf m r.id = some r.score := by
  unfold scoreOf
  rw [find?_key_of_nodup_mem h hr]
  rfl

theorem scoreDesc_trans : ∀ a b c : Result,
    scoreDesc a b → scoreDesc b c → scoreDesc a c := by
  intro a b c hab hbc
  simp only [scoreDesc, decide_eq_true_eq] at *
  exact le_trans hbc hab

theorem scoreDesc_total : ∀ a b : Result, scoreDesc a b || scoreDesc b a := by
  intro a b
  simp only [scoreDesc, Bool.or_eq_true, decide_eq_true_eq]
  exact le_total b.score a.score

theorem pairwise_scoreDesc_mergeSort (l : List Result) :
    (l.mergeSort scoreDesc).Pairwise (fun a b => b.score ≤ a.score) :=
  (List.sorted_mergeSort scoreDesc_trans scoreDesc_total l).imp
    (fun h => by simpa [scoreDesc] using h)

theorem take_drop_dominance (L : List Result)
    (hL : L.Pairwise (fun a b => b.score ≤ a.score)) (n : ℕ) :
    ∀ x ∈ L.take n, ∀ y ∈ L.drop n, y.score ≤ x.score := by
  have hsplit : L = L.take n ++ L.drop n := (List.take_append_drop n L).symm
  rw [hsplit] at hL
  exact fun x hx y hy => (List.pairwise_append.1 hL).2.2 x hx y hy

theorem mem_keys_rrfDict (k : ℚ) (d s c : List Result) (id : ℕ) :
    id ∈ (rrfDict k d s c).map Result.id ↔
      id ∈ d.map Result.id ∨ id ∈ s.map Result.id ∨ id ∈ c.map Result.id := by
  unfold rrfDict
  rw [mem_keys_rrfProcess, mem_keys_rrfProcess, mem_keys_rrfProcess]
  simp only [List.map_nil, List.not_mem_nil, false_or]
  tauto

theorem nodup_keys_rrfDict (k : ℚ) (d s c : List Result) :
    ((rrfDict k d s c).map Result.id).Nodup := by
  unfold rrfDict
  exact nodup_keys_rrfProcess k c 1 _
    (nodup_keys_rrfProcess k s 1 _
      (nodup_keys_rrfProcess k d 1 [] (by simp)))

theorem scoreOf_rrfDict (k : ℚ) (d s c : List Result)
    (hd : (d.map Result.id).Nodup) (hs : (s.map Result.id).Nodup)
    (hc : (c.map Result.id).Nodup) (id : ℕ)
    (h : id ∈ d.map Result.id ∨ id ∈ s.map Result.id ∨ id ∈ c.map Result.id) :
    scoreOf (rrfDict k d s c) id = some (specRRFScore k id d s c) := by
  have h0 : scoreOf ([] : List Result) id = none := rfl
  have ed := specListContrib_eq_rrfContrib k id d hd
  have es := specListContrib_eq_rrfContrib k id s hs
  have ec := specListContrib_eq_rrfContrib k id c hc
  unfold rrfDict specRRFScore
  rw [scoreOf_rrfProcess, scoreOf_rrfProcess, scoreOf_rrfProcess, h0]
  by_cases hdm : id ∈ d.map Result.id <;>
    by_cases hsm : id ∈ s.map Result.id <;>
      by_cases hcm : id ∈ c.map Result.id <;>
        simp only [hdm, hsm, hcm, if_true, if_false, iff_true, iff_false,
          Option.getD_some, Option.getD_none]
  · rw [ed, es, ec]
    try (congr 1)
    try ring
  · rw [ed, es, specListContrib_eq_zero k id c hcm]
    try (congr 1)
    try ring
  · rw [ed, ec, specListContrib_eq_zero k id s hsm]
    try (congr 1)
    try ring
  · rw [ed, specListContrib_eq_zero k id s hsm, specListContrib_eq_zero k id c hcm]
    try (congr 1)
    try ring
  · rw [es, ec, specListContrib_eq_zero k id d hdm]
    try (congr 1)
    try ring
  · rw [es, specListContrib_eq_zero k id d hdm, specListContrib_eq_zero k id c hcm]
    try (congr 1)
    try ring
  · rw [ec, specListContrib_eq_zero k id d hdm, specListContrib_eq_zero k id s hsm]
    try (congr 1)
    try ring
  · rcases h with hm | hm | hm
    · exact absurd hm hdm
    · exact absurd hm hsm
    · exact absurd hm hcm

theorem rrfProcess_map_scores (k : ℚ) (f : ℚ → ℚ) (l : List Result) :
    ∀ (rank : ℕ) (m : List Result),
    rrfProcess k rank (map_scores f l) m = rrfProcess k rank l m := by
  induction l with
  | nil => intro rank m; rfl
  | cons r rs ih =>
    intro rank m
    simp only [map_scores, List.map_cons] at *
    simp only [rrfProcess]
    exact ih (rank + 1) _

/-- C1: for every three ranked input lists (with distinct ids within each
list) and every limit, RRF assigns each candidate id the accumulated score
`sum over lists containing it of 1/(k + r)` (`r` its 1-based rank there),
with `k` defaulting to 60; the output is sorted by that score descending,
has pairwise-distinct ids drawn from the inputs, and is truncated to the
limit, keeping only top-scoring candidates. -/
theorem rrf_fusion_correct (k : ℚ) (d s c : List Result) (top_k : ℕ)
    (hd : (d.map Result.id).Nodup) (hs : (s.map Result.id).Nodup)
    (hc : (c.map Result.id).Nodup) :
    retriever_rrf_k none = 60 ∧
    (∀ id : ℕ,
      id ∈ d.map Result.id ∨ id ∈ s.map Result.id ∨ id ∈ c.map Result.id →
      scoreOf (rrfDict k d s c) id = some (specRRFScore k id d s c)) ∧
    (∀ r ∈ reciprocal_rank_fusion k d s c top_k,
      r.score = specRRFScore k r.id d s c ∧
      (r.id ∈ d.map Result.id ∨ r.id ∈ s.map Result.id ∨ r.id ∈ c.map Result.id)) ∧
    ((reciprocal_rank_fusion k d s c top_k).map Result.id).Nodup ∧
    (reciprocal_rank_fusion k d s c top_k).Pairwise (fun a b => b.score ≤ a.score) ∧
    (reciprocal_rank_fusion k d s c top_k).length = min top_k (rrfDict k d s c).length ∧
    (∀ id : ℕ,
      id ∈ d.map Result.id ∨ id ∈ s.map Result.id ∨ id ∈ c.map Result.id →
      id ∉ (reciprocal_rank_fusion k d s c top_k).map Result.id →
      ∀ r ∈ reciprocal_rank_fusion k d s c top_k,
        specRRFScore k id d s c ≤ r.score) := by
  have hnodupD : ((rrfDict k d s c).map Result.id).Nodup := nodup_keys_rrfDict k d s c
  have hmemD := mem_keys_rrfDict k d s c
  have hscoreD := scoreOf_rrfDict k d s c hd hs hc
  have hperm : List.Perm ((rrfDict k d s c).mergeSort scoreDesc) (rrfDict k d s c) :=
    List.mergeSort_perm _ scoreDesc
  have hSorted := pairwise_scoreDesc_mergeSort (rrfDict k d s c)
  have hout : reciprocal_rank_fusion k d s c top_k =
      ((rrfDict k d s c).mergeSort scoreDesc).take top_k := rfl
  refine ⟨rfl, hscoreD, ?_, ?_, ?_, ?_, ?_⟩
  · intro r hr
    have hrD : r ∈ rrfDict k d s c :=
      List.mem_mergeSort.1 (List.mem_of_mem_take (hout ▸ hr))
    have hidmem : r.id ∈ (rrfDict k d s c).map Result.id := List.mem_map.2 ⟨r, hrD, rfl⟩
    have hun := (hmemD r.id).1 hidmem
    have h1 : scoreOf (rrfDict k d s c) r.id = some r.score :=
      scoreOf_of_nodup_mem hnodupD hrD
    have h2 := hscoreD r.id hun
    rw [h1] at h2
    exact ⟨Option.some.inj h2, hun⟩
  · have hn : (((rrfDict k d s c).mergeSort scoreDesc).map Result.id).Nodup :=
      ((hperm.map Result.id).nodup_iff).2 hnodupD
    rw [hout, List.map_take]
    exact hn.sublist (List.take_sublist _ _)
  · rw [hout]
    exact hSorted.sublist (List.take_sublist _ _)
  · rw [hout, List.length_take, List.length_mergeSort]
  · intro id hun hnot r hr
    have hidD : id ∈ (rrfDict k d s c).map Result.id := (hmemD id).2 hun
    rcases List.mem_map.1 hidD with ⟨e, heD, heid⟩
    have heSort : e ∈ (rrfDict k d s c).mergeSort scoreDesc := List.mem_mergeSort.2 heD
    have hcase : e ∈ ((rrfDict k d s c).mergeSort scoreDesc).take top_k ∨
        e ∈ ((rrfDict k d s c).mergeSort scoreDesc).drop top_k := by
      rw [← List.mem_append, List.take_append_drop]
      exact heSort
    rcases hcase with htake | hdrop
    · exact absurd (hout ▸ List.mem_map.2 ⟨e, htake, heid⟩) hnot
    · have hescore : e.score = specRRFScore k id d s c := by
        have h1 : scoreOf (rrfDict k d s c) e.id = some e.score :=
          scoreOf_of_nodup_mem hnodupD heD
        have h2 := hscoreD e.id (by rw [heid]; exact hun)
        rw [h1, heid] at h2
        exact Option.some.inj h2
      have hdom := take_drop_dominance _ hSorted top_k r (hout ▸ hr) e hdrop
      rw [hescore] at hdom
      exact hdom

theorem rrf_fusion_correct_witness :
    ((([⟨1, 9, emptyPayload⟩, ⟨2, 5, emptyPayload⟩] : List Result).map Result.id).Nodup ∧
      (([⟨2, 4, emptyPayload⟩] : List Result).map Result.id).Nodup ∧
      (([] : List Result).map Result.id).Nodup) ∧
    (∀ r ∈ reciprocal_rank_fusion 60 [⟨1, 9, emptyPayload⟩, ⟨2, 5, emptyPayload⟩]
        [⟨2, 4, emptyPayload⟩] [] 2,
      r.score = specRRFScore 60 r.id [⟨1, 9, emptyPayload⟩, ⟨2, 5, emptyPayload⟩]
        [⟨2, 4, emptyPayload⟩] []) := by
  have h := rrf_fusion_correct 60 [⟨1, 9, emptyPayload⟩, ⟨2, 5, emptyPayload⟩]
    [⟨2, 4, emptyPayload⟩] [] 2 (by decide) (by decide) (by decide)
  exact ⟨⟨by decide, by decide, by decide⟩, fun r hr => (h.2.2.1 r hr).1⟩

/-- C2: RRF fusion is rank-only — replacing all raw scores of the three
input lists by any strictly order-preserving transformation yields the same
fused candidate ids in the same output order (in fact the very same output,
since the fused scores are rank-derived). -/
theorem rrf_rank_only (k : ℚ) (f : ℚ → ℚ) (hf : StrictMono f)
    (d s c : List Result) (top_k : ℕ) :
    (reciprocal_rank_fusion k (map_scores f d) (map_scores f s) (map_scores f c)
        top_k).map Result.id =
      (reciprocal_rank_fusion k d s c top_k).map Result.id := by
  unfold reciprocal_rank_fusion rrfDict
  rw [rrfProcess_map_scores, rrfProcess_map_scores, rrfProcess_map_scores]

theorem rrf_rank_only_witness :
    StrictMono (fun x : ℚ => x) ∧
    (reciprocal_rank_fusion 60
        (map_scores (fun x : ℚ => x) [⟨1, 9, emptyPayload⟩])
        (map_scores (fun x : ℚ => x) [⟨2, 4, emptyPayload⟩])
        (map_scores (fun x : ℚ => x) []) 2).map Result.id =
      (reciprocal_rank_fusion 60 [⟨1, 9, emptyPayload⟩] [⟨2, 4, emptyPayload⟩] [] 2).map
        Result.id :=
  ⟨strictMono_id, rrf_rank_only 60 (fun x => x) strictMono_id
    [⟨1, 9, emptyPayload⟩] [⟨2, 4, emptyPayload⟩] [] 2⟩

theorem foldl_max_init_le (a : ℚ) (xs : List ℚ) : a ≤ xs.foldl max a := by
  induction xs generalizing a with
  | nil => exact le_refl a
  | cons x xs ih => exact le_trans (le_max_left a x) (ih (max a x))

theorem le_foldl_max (a : ℚ) (xs : List ℚ) : ∀ x ∈ xs, x ≤ xs.foldl max a := by
  induction xs generalizing a with
  | nil => intro x hx; cases hx
  | cons y ys ih =>
    intro x hx
    rcases List.mem_cons.1 hx with rfl | hx'
    · exact le_trans (le_max_right a x) (foldl_max_init_le (max a x) ys)
    · exact ih (max a y) x hx'

theorem foldl_min_le_init (a : ℚ) (xs : List ℚ) : xs.foldl min a ≤ a := by
  induction xs generalizing a with
  | nil => exact le_refl a
  | cons x xs ih => exact le_trans (ih (min a x)) (min_le_left a x)

theorem foldl_min_le (a : ℚ) (xs : List ℚ) : ∀ x ∈ xs, xs.foldl min a ≤ x := by
  induction xs generalizing a with
  | nil => intro x hx; cases hx
  | cons y ys ih =>
    intro x hx
    rcases List.mem_cons.1 hx with rfl | hx'
    · exact le_trans (foldl_min_le_init (min a x) ys) (min_le_right a x)
    · exact ih (min a y) x hx'

theorem foldl_max_const (q : ℚ) (xs : List ℚ) (h : ∀ x ∈ xs, x = q) :
    xs.foldl max q = q := by
  induction xs with
  | nil => rfl
  | cons x xs ih =>
    have hx : x = q := h x (List.mem_cons_self x xs)
    have := ih (fun y hy => h y (List.mem_cons_of_mem x hy))
    simpa [hx] using this

theorem foldl_min_const (q : ℚ) (xs : List ℚ) (h : ∀ x ∈ xs, x = q) :
    xs.foldl min q = q := by
  induction xs with
  | nil => rfl
  | cons x xs ih =>
    have hx : x = q := h x (List.mem_cons_self x xs)
    have := ih (fun y hy => h y (List.mem_cons_of_mem x hy))
    simpa [hx] using this

/-- C3: each channel is min-max normalized into `[0,1]` before weighting; an
empty channel contributes nothing to the accumulator; when all scores of a
channel are equal the denominator is forced to `1.0` (no division by zero)
and every candidate of that channel gets normalized score `0`. -/
theorem weighted_fusion_normalization (l : List Result) (q : ℚ)
    (h : ∀ r ∈ l, r.score = q) :
    normalize_scores ([] : List Result) = [] ∧
    (∀ (m : List Result) (w : ℚ), wAcc m (normalize_scores []) w = m) ∧
    (∀ e ∈ normalize_scores l, e.score = 0) ∧
    (normalize_scores l).map Result.id = l.map Result.id ∧
    (∀ l' : List Result, ∀ e ∈ normalize_scores l', 0 ≤ e.score ∧ e.score ≤ 1) := by
  refine ⟨rfl, fun m w => rfl, ?_, ?_, ?_⟩
  · intro e he
    match l, h with
    | [], _ => cases he
    | r :: rs, h =>
      have hr : r.score = q := h r (List.mem_cons_self r rs)
      have hall : ∀ x ∈ rs.map Result.score, x = q := by
        intro x hx
        rcases List.mem_map.1 hx with ⟨y, hy, rfl⟩
        exact h y (List.mem_cons_of_mem r hy)
      have hM : (rs.map Result.score).foldl max r.score = q := by
        rw [hr]
        exact foldl_max_const q _ hall
      have hm : (rs.map Result.score).foldl min r.score = q := by
        rw [hr]
        exact foldl_min_const q _ hall
      simp only [normalize_scores, hM, hm, sub_self, if_pos rfl] at he
      rcases List.mem_map.1 he with ⟨x, hx, rfl⟩
      have hxs : x.score = q := h x hx
      simp [hxs]
  · match l with
    | [] => rfl
    | r :: rs =>
      simp only [normalize_scores]
      rw [List.map_map]
      rfl
  · intro l' e he
    match l', he with
    | [], he => cases he
    | r :: rs, he =>
      simp only [normalize_scores] at he
      rcases List.mem_map.1 he with ⟨x, hx, rfl⟩
      have hxM : x.score ≤ (rs.map Result.score).foldl max r.score := by
        rcases List.mem_cons.1 hx with rfl | hx'
        · exact foldl_max_init_le _ _
        · exact le_foldl_max _ _ _ (List.mem_map.2 ⟨x, hx', rfl⟩)
      have hxm : (rs.map Result.score).foldl min r.score ≤ x.score := by
        rcases List.mem_cons.1 hx with rfl | hx'
        · exact foldl_min_le_init _ _
        · exact foldl_min_le _ _ _ (List.mem_map.2 ⟨x, hx', rfl⟩)
      set M := (rs.map Result.score).foldl max r.score with hMdef
      set mn := (rs.map Result.score).foldl min r.score with hmdef
      by_cases hz : M - mn = 0
      · have hxq : x.score = mn := le_antisymm (by linarith) hxm
        rw [if_pos hz]
        constructor
        · simp [hxq]
        · simp [hxq]
      · have hlt : 0 < M - mn := by
          have hmM : mn ≤ M := le_trans hxm hxM
          cases lt_or_eq_of_le hmM with
          | inl hlt => linarith
          | inr heq => exact absurd (by rw [heq]; ring) hz
        rw [if_neg hz]
        constructor
        · exact div_nonneg (by linarith) (le_of_lt hlt)
        · rw [div_le_one hlt]
          linarith

theorem weighted_fusion_normalization_witness :
    (∀ r ∈ ([⟨1, 7, emptyPayload⟩, ⟨2, 7, emptyPayload⟩] : List Result),
      r.score = 7) ∧
    (∀ e ∈ normalize_scores [⟨1, 7, emptyPayload⟩, ⟨2, 7, emptyPayload⟩],
      e.score = 0) := by
  have h := weighted_fusion_normalization
    [⟨1, 7, emptyPayload⟩, ⟨2, 7, emptyPayload⟩] 7 (by decide)
  exact ⟨by decide, h.2.2.1⟩

theorem content_boost_one_score (b : Boosts) (r : Result) :
    (content_boost_one b r).score =
      r.score * (if r.payload.has_table = true ∧ 0 < b.table then 1 + b.table else 1)
        * (if r.payload.has_chart = true ∧ 0 < b.chart then 1 + b.chart else 1)
        * (if r.payload.chunk_type.getD "text" = "text" ∧ 0 < b.text
            then 1 + b.text else 1) := by
  simp only [content_boost_one, Bool.and_eq_true, decide_eq_true_eq, beq_iff_eq,
    gt_iff_lt]
  by_cases h1 : r.payload.has_table = true ∧ 0 < b.table <;>
    by_cases h2 : r.payload.has_chart = true ∧ 0 < b.chart <;>
      by_cases h3 : r.payload.chunk_type.getD "text" = "text" ∧ 0 < b.text <;>
        simp only [h1, h2, h3, and_self, if_true, if_false, iff_true, iff_false] <;> ring

/-- C7: content boosting multiplies a candidate's score by `(1 + boost)` per
matching category in the fixed order table, chart, text; a candidate flagged
both has_table and has_chart with boosts 0.4 and 0.3 gets the combined
multiplier `1.4 * 1.3`; the boosted list is re-sorted by score descending
(as a permutation of the boosted candidates). -/
theorem apply_content_boost_correct (results : List Result) (b : Boosts) :
    List.Perm (apply_content_boost results b) (results.map (content_boost_one b)) ∧
    (apply_content_boost results b).Pairwise (fun x y => y.score ≤ x.score) ∧
    (∀ r : Result, (content_boost_one b r).score =
      r.score * (if r.payload.has_table = true ∧ 0 < b.table then 1 + b.table else 1)
        * (if r.payload.has_chart = true ∧ 0 < b.chart then 1 + b.chart else 1)
        * (if r.payload.chunk_type.getD "text" = "text" ∧ 0 < b.text
            then 1 + b.text else 1)) ∧
    (∀ r : Result, r.payload.has_table = true → r.payload.has_chart = true →
      (content_boost_one (Boosts.mk 0.4 0.3 0) r).score = r.score * 1.4 * 1.3) := by
  refine ⟨List.mergeSort_perm _ _, pairwise_scoreDesc_mergeSort _,
    content_boost_one_score b, ?_⟩
  · intro r h1 h2
    rw [content_boost_one_score]
    norm_num [h1, h2]
    try ring

theorem apply_content_boost_correct_witness :
    ((⟨5, 2, Payload.mk true true none none none []⟩ : Result).payload.has_table = true) ∧
    (content_boost_one (Boosts.mk 0.4 0.3 0)
        ⟨5, 2, Payload.mk true true none none none []⟩).score = 2 * 1.4 * 1.3 :=
  ⟨rfl, (apply_content_boost_correct [] (Boosts.mk 0.4 0.3 0)).2.2.2
    ⟨5, 2, Payload.mk true true none none none []⟩ rfl rfl⟩

/-- C9: a candidate evaluated with no graph context gets graph score exactly
0.5, and a candidate whose payload has no `fiscal_year` (or an unparsable
one) gets temporal score exactly 0.5; both functions are total, so no
exception is possible. -/
theorem reranker_neutral_scores (exp : ℚ → ℚ) (r : Result) (p : Payload)
    (cy : Int) :
    calculate_graph_score r none = 0.5 ∧
    (p.fiscal_year = none → calculate_temporal_score exp p cy = 0.5) ∧
    (∀ s : String, p.fiscal_year = some (FY.str s) → pyToInt? s = none →
      calculate_temporal_score exp p cy = 0.5) := by
  refine ⟨rfl, ?_, ?_⟩
  · intro h
    unfold calculate_temporal_score
    rw [h]
  · intro s hfy hparse
    unfold calculate_temporal_score
    rw [hfy]
    by_cases ht : FY.truthy (FY.str s) = true
    · simp [ht, FY.toIntOpt, hparse]
    · simp [ht]

theorem reranker_neutral_scores_witness :
    (emptyPayload.fiscal_year = none ∧
      calculate_temporal_score (fun x => x) emptyPayload 2024 = 0.5) ∧
    ((Payload.mk false false none none (some (FY.str "unknown")) []).fiscal_year =
        some (FY.str "unknown") ∧
      pyToInt? "unknown" = none ∧
      calculate_temporal_score (fun x => x)
        (Payload.mk false false none none (some (FY.str "unknown")) []) 2024 = 0.5) ∧
    calculate_graph_score ⟨1, 1, emptyPayload⟩ none = 0.5 :=
  ⟨⟨rfl, (reranker_neutral_scores (fun x => x) ⟨1, 1, emptyPayload⟩
      emptyPayload 2024).2.1 rfl⟩,
    ⟨rfl, by decide,
      (reranker_neutral_scores (fun x => x) ⟨1, 1, emptyPayload⟩
        (Payload.mk false false none none (some (FY.str "unknown")) []) 2024).2.2
        "unknown" rfl (by decide)⟩,
    (reranker_neutral_scores (fun x => x) ⟨1, 1, emptyPayload⟩
      emptyPayload 2024).1⟩

/-- C10: a candidate whose payload has no `chunk_type` field is boosted
exactly like one explicitly marked `chunk_type = "text"`: whenever the text
boost is positive its score is multiplied by `(1 + text boost)`. -/
theorem chunk_type_defaults_to_text (b : Boosts) (r : Result)
    (hct : r.payload.chunk_type = none) (hb : 0 < b.text) :
    (content_boost_one b r).score = (content_boost_one b (setChunkText r)).score ∧
    (content_boost_one b r).score =
      (content_boost_one (Boosts.mk b.table b.chart 0) r).score * (1 + b.text) := by
  constructor
  · simp only [content_boost_one, setChunkText, hct, Option.getD_some, Option.getD_none]
  · have hz : ¬ ((0 : ℚ) < 0) := lt_irrefl 0
    simp only [content_boost_one, hct, Option.getD_none, Bool.and_eq_true,
      decide_eq_true_eq, beq_iff_eq, hb, hz, and_true, and_false, if_true, if_false]

theorem chunk_type_defaults_to_text_witness :
    ((⟨3, 5, emptyPayload⟩ : Result).payload.chunk_type = none ∧
      (0 : ℚ) < (Boosts.mk 0 0 0.2).text) ∧
    (content_boost_one (Boosts.mk 0 0 0.2) ⟨3, 5, emptyPayload⟩).score =
      (content_boost_one (Boosts.mk 0 0 0.2) (setChunkText ⟨3, 5, emptyPayload⟩)).score :=
  ⟨⟨rfl, by norm_num⟩,
    (chunk_type_defaults_to_text (Boosts.mk 0 0 0.2) ⟨3, 5, emptyPayload⟩ rfl
      (by norm_num)).1⟩

/-- C4: for every query with zero matched indicator words (all three
component scores are zero — including the empty string and symbol-only
strings) and no matched content-boost keyword, `classify` returns weights
sparse = dense = colbert = 0 without any division error (the zero total is
replaced by 1.0 before dividing), and `get_content_boost` returns boost 0.0
for each of table, chart and text. -/
theorem classify_no_indicator_matches (q : String)
    (hk : calculate_keyword_score q.toList (lowerOf q) = 0)
    (hs : calculate_semantic_score (lowerOf q) = 0)
    (ha : calculate_analytical_score (lowerOf q) = 0)
    (ht : table_keywords.any (fun kw => strIn kw (lowerOf q)) = false)
    (hch : chart_keywords.any (fun kw => strIn kw (lowerOf q)) = false)
    (htx : text_keywords.any (fun kw => strIn kw (lowerOf q)) = false) :
    (classify q).sparse_weight = 0 ∧ (classify q).dense_weight = 0 ∧
    (classify q).colbert_weight = 0 ∧
    get_content_boost q = Boosts.mk 0 0 0 := by
  simp only [classify, get_content_boost]
  rw [hk, hs, ha, ht, hch, htx]
  norm_num

theorem classify_no_indicator_matches_witness :
    (calculate_keyword_score "@#$%".toList (lowerOf "@#$%") = 0 ∧
      calculate_semantic_score (lowerOf "@#$%") = 0 ∧
      calculate_analytical_score (lowerOf "@#$%") = 0 ∧
      table_keywords.any (fun kw => strIn kw (lowerOf "@#$%")) = false ∧
      chart_keywords.any (fun kw => strIn kw (lowerOf "@#$%")) = false ∧
      text_keywords.any (fun kw => strIn kw (lowerOf "@#$%")) = false) ∧
    ((classify "@#$%").sparse_weight = 0 ∧ (classify "@#$%").dense_weight = 0 ∧
      (classify "@#$%").colbert_weight = 0 ∧
      get_content_boost "@#$%" = Boosts.mk 0 0 0) := by
  refine ⟨⟨?_, ?_, ?_, ?_, ?_, ?_⟩, ?_⟩
  · norm_num +decide [calculate_keyword_score, keyword_indicators, min_def]
  · norm_num +decide [calculate_semantic_score, semantic_words, min_def]
  · norm_num +decide [calculate_analytical_score, analytical_words, min_def]
  · decide
  · decide
  · decide
  · exact classify_no_indicator_matches "@#$%"
      (by norm_num +decide [calculate_keyword_score, keyword_indicators, min_def])
      (by norm_num +decide [calculate_semantic_score, semantic_words, min_def])
      (by norm_num +decide [calculate_analytical_score, analytical_words, min_def])
      (by decide) (by decide) (by decide)

/-- C5 counterexample: on the empty query all three component scores are
zero, yet the returned weights are not an equal positive split summing
to 1 — they are all 0. -/
theorem classify_empty_not_uniform_cex :
    (classify "").keyword_score = 0 ∧ (classify "").semantic_score = 0 ∧
    (classify "").analytical_score = 0 ∧
    ¬ (0 < (classify "").sparse_weight ∧ 0 < (classify "").dense_weight ∧
       0 < (classify "").colbert_weight ∧
       (classify "").sparse_weight + (classify "").dense_weight +
         (classify "").colbert_weight = 1) := by
  norm_num +decide [classify, calculate_keyword_score, calculate_semantic_score,
    calculate_analytical_score, keyword_indicators, semantic_words,
    analytical_words, min_def]

/-- C5 amended: on every query whose three component scores are all zero —
in particular the empty query — the denominator falls back to 1.0 and the
three weights come out all equal to each other, but equal to 0 (they sum to
0, not to 1); no exception is raised. -/
theorem classify_zero_scores_equal_weights (q : String)
    (hk : calculate_keyword_score q.toList (lowerOf q) = 0)
    (hs : calculate_semantic_score (lowerOf q) = 0)
    (ha : calculate_analytical_score (lowerOf q) = 0) :
    (classify q).sparse_weight = (classify q).dense_weight ∧
    (classify q).dense_weight = (classify q).colbert_weight ∧
    (classify q).sparse_weight = 0 ∧
    (classify q).sparse_weight + (classify q).dense_weight +
      (classify q).colbert_weight = 0 := by
  simp only [classify]
  rw [hk, hs, ha]
  norm_num

theorem classify_zero_scores_equal_weights_witness :
    (calculate_keyword_score "".toList (lowerOf "") = 0 ∧
      calculate_semantic_score (lowerOf "") = 0 ∧
      calculate_analytical_score (lowerOf "") = 0) ∧
    ((classify "").sparse_weight = (classify "").dense_weight ∧
      (classify "").dense_weight = (classify "").colbert_weight ∧
      (classify "").sparse_weight = 0) := by
  refine ⟨⟨?_, ?_, ?_⟩, ?_⟩
  · norm_num +decide [calculate_keyword_score, keyword_indicators, min_def]
  · norm_num +decide [calculate_semantic_score, semantic_words, min_def]
  · norm_num +decide [calculate_analytical_score, analytical_words, min_def]
  · have h := classify_zero_scores_equal_weights ""
      (by norm_num +decide [calculate_keyword_score, keyword_indicators, min_def])
      (by norm_num +decide [calculate_semantic_score, semantic_words, min_def])
      (by norm_num +decide [calculate_analytical_score, analytical_words, min_def])
    exact ⟨h.1, h.2.1, h.2.2.1⟩

theorem colbert_rescore_eq_some {qts : List (List ℚ)} {c r : Result}
    (h : colbert_rescore qts c = some r) :
    r.id = c.id ∧ r.payload = c.payload ∧
    ∃ ts, c.payload.colbert_tokens = some ts ∧ ts ≠ [] ∧
      r.score = compute_maxsim qts ts := by
  unfold colbert_rescore at h
  by_cases he : (c.payload.colbert_tokens.getD []).isEmpty
  · rw [if_pos he] at h
    cases h
  · rw [if_neg he] at h
    cases h
    refine ⟨rfl, rfl, c.payload.colbert_tokens.getD [], ?_, ?_, rfl⟩
    · cases hct : c.payload.colbert_tokens with
      | none => rw [hct] at he; simp at he
      | some ts => simp
    · simpa [List.isEmpty_iff] using he

theorem colbert_rescore_of_scorable {qts : List (List ℚ)} {c : Result}
    (h : scorable c = true) :
    colbert_rescore qts c =
      some (Result.mk c.id (compute_maxsim qts (c.payload.colbert_tokens.getD []))
        c.payload) := by
  unfold scorable at h
  unfold colbert_rescore
  rw [if_neg (by simpa using h)]

theorem colbert_rescore_isSome_iff {qts : List (List ℚ)} {c : Result} :
    (colbert_rescore qts c).isSome = scorable c := by
  unfold colbert_rescore scorable
  by_cases he : (c.payload.colbert_tokens.getD []).isEmpty
  · simp [he]
  · simp [he]

theorem length_filterMap_rescore (qts : List (List ℚ)) (pool : List Result) :
    (pool.filterMap (colbert_rescore qts)).length = pool.countP scorable := by
  induction pool with
  | nil => rfl
  | cons c cs ih =>
    rw [List.filterMap_cons, List.countP_cons]
    by_cases h : scorable c = true
    · rw [colbert_rescore_of_scorable h]
      simp [ih, h]
    · have hn : colbert_rescore qts c = none := by
        have this : (colbert_rescore qts c).isSome = scorable c :=
          colbert_rescore_isSome_iff
        rw [eq_false_of_ne_true h] at this
        exact Option.not_isSome_iff_eq_none.1 (by simp [this])
      rw [hn]
      simp [ih, h]

/-- C8: late-interaction search is two-staged: the first stage is a dense
search on the mean of the query token vectors with a pool of `2 x limit`;
every pool candidate with stored (non-empty) document token vectors is
re-scored by MaxSim (`compute_maxsim`: sum over query tokens of the maximum
dot product against any document token), candidates without stored token
vectors are silently dropped, and the scored candidates are sorted by MaxSim
descending and truncated to the limit (keeping only top-MaxSim candidates). -/
theorem colbert_search_two_stage (search_dense : List ℚ → ℕ → List Result)
    (qts : List (List ℚ)) (limit : ℕ)
    (hnd : ((search_dense (meanVec qts) (limit * 2)).map Result.id).Nodup) :
    (colbert_search search_dense qts limit).length =
      min limit ((search_dense (meanVec qts) (limit * 2)).countP scorable) ∧
    (∀ r ∈ colbert_search search_dense qts limit,
      ∃ c ∈ search_dense (meanVec qts) (limit * 2), r.id = c.id ∧
        r.payload = c.payload ∧
        ∃ ts, c.payload.colbert_tokens = some ts ∧ ts ≠ [] ∧
          r.score = compute_maxsim qts ts) ∧
    (colbert_search search_dense qts limit).Pairwise (fun a b => b.score ≤ a.score) ∧
    (∀ c ∈ search_dense (meanVec qts) (limit * 2), scorable c = false →
      c.id ∉ (colbert_search search_dense qts limit).map Result.id) ∧
    (∀ c ∈ search_dense (meanVec qts) (limit * 2), scorable c = true →
      c.id ∉ (colbert_search search_dense qts limit).map Result.id →
      ∀ r ∈ colbert_search search_dense qts limit,
        compute_maxsim qts (c.payload.colbert_tokens.getD []) ≤ r.score) := by
  have hout : colbert_search search_dense qts limit =
      (((search_dense (meanVec qts) (limit * 2)).filterMap
        (colbert_rescore qts)).mergeSort scoreDesc).take limit := rfl
  have hSorted := pairwise_scoreDesc_mergeSort
    ((search_dense (meanVec qts) (limit * 2)).filterMap (colbert_rescore qts))
  refine ⟨?_, ?_, ?_, ?_, ?_⟩
  · rw [hout, List.length_take, List.length_mergeSort, length_filterMap_rescore]
  · intro r hr
    have hrs : r ∈ (search_dense (meanVec qts) (limit * 2)).filterMap
        (colbert_rescore qts) :=
      List.mem_mergeSort.1 (List.mem_of_mem_take (hout ▸ hr))
    rcases List.mem_filterMap.1 hrs with ⟨c, hc, hcr⟩
    rcases colbert_rescore_eq_some hcr with ⟨h1, h2, ts, h3, h4, h5⟩
    exact ⟨c, hc, h1, h2, ts, h3, h4, h5⟩
  · rw [hout]
    exact hSorted.sublist (List.take_sublist _ _)
  · intro c hc hns hmem
    rcases List.mem_map.1 hmem with ⟨r, hr, hrid⟩
    have hrs : r ∈ (search_dense (meanVec qts) (limit * 2)).filterMap
        (colbert_rescore qts) :=
      List.mem_mergeSort.1 (List.mem_of_mem_take (hout ▸ hr))
    rcases List.mem_filterMap.1 hrs with ⟨c', hc', hcr⟩
    rcases colbert_rescore_eq_some hcr with ⟨h1, _, ts, h3, h4, _⟩
    have hcc : c' = c :=
      List.inj_on_of_nodup_map hnd hc' hc (by rw [← h1, hrid])
    rw [hcc] at h3
    have : scorable c = true := by
      unfold scorable
      rw [h3]
      simpa using h4
    rw [this] at hns
    cases hns
  · intro c hc hsc hnot r hr
    have he : colbert_rescore qts c =
        some (Result.mk c.id (compute_maxsim qts (c.payload.colbert_tokens.getD []))
          c.payload) := colbert_rescore_of_scorable hsc
    have hemem : (Result.mk c.id
        (compute_maxsim qts (c.payload.colbert_tokens.getD [])) c.payload) ∈
        (search_dense (meanVec qts) (limit * 2)).filterMap (colbert_rescore qts) :=
      List.mem_filterMap.2 ⟨c, hc, he⟩
    have heSort : (Result.mk c.id
        (compute_maxsim qts (c.payload.colbert_tokens.getD [])) c.payload) ∈
        ((search_dense (meanVec qts) (limit * 2)).filterMap
          (colbert_rescore qts)).mergeSort scoreDesc :=
      List.mem_mergeSort.2 hemem
    have hcase : (Result.mk c.id
        (compute_maxsim qts (c.payload.colbert_tokens.getD [])) c.payload) ∈
          (((search_dense (meanVec qts) (limit * 2)).filterMap
            (colbert_rescore qts)).mergeSort scoreDesc).take limit ∨
        (Result.mk c.id
          (compute_maxsim qts (c.payload.colbert_tokens.getD [])) c.payload) ∈
          (((search_dense (meanVec qts) (limit * 2)).filterMap
            (colbert_rescore qts)).mergeSort scoreDesc).drop limit := by
      rw [← List.mem_append, List.take_append_drop]
      exact heSort
    rcases hcase with htake | hdrop
    · exact absurd (hout ▸ List.mem_map.2 ⟨_, htake, rfl⟩) hnot
    · have := take_drop_dominance _ hSorted limit r (hout ▸ hr) _ hdrop
      exact this

theorem colbert_search_two_stage_witness :
    ((((fun _ _ => [⟨1, 3, Payload.mk false false none (some [[1]]) none []⟩,
          ⟨2, 5, emptyPayload⟩]) : List ℚ → ℕ → List Result)
        (meanVec [[2]]) (1 * 2)).map Result.id).Nodup ∧
    (∀ r ∈ colbert_search
        (fun _ _ => [⟨1, 3, Payload.mk false false none (some [[1]]) none []⟩,
          ⟨2, 5, emptyPayload⟩]) [[2]] 1,
      ∃ c ∈ ((fun _ _ => [⟨1, 3, Payload.mk false false none (some [[1]]) none []⟩,
          ⟨2, 5, emptyPayload⟩]) : List ℚ → ℕ → List Result)
            (meanVec [[2]]) (1 * 2), r.id = c.id ∧
        r.payload = c.payload ∧
        ∃ ts, c.payload.colbert_tokens = some ts ∧ ts ≠ [] ∧
          r.score = compute_maxsim [[2]] ts) := by
  have h := colbert_search_two_stage
    (fun _ _ => [⟨1, 3, Payload.mk false false none (some [[1]]) none []⟩,
      ⟨2, 5, emptyPayload⟩]) [[2]] 1 (by decide)
  exact ⟨by decide, h.2.1⟩

theorem keys_rrfPass (k : ℚ) (l : List Result) :
    ∀ rank : ℕ, (rrfPass k rank l).map Result.id = l.map Result.id := by
  induction l with
  | nil => intro rank; rfl
  | cons r rs ih =>
    intro rank
    simp only [rrfPass, List.map_cons]
    rw [ih (rank + 1)]

theorem dictAdd_of_present {m : List Result} {id : ℕ} (inc : ℚ) (pl : Payload)
    (h : id ∈ m.map Result.id) :
    dictAdd m id inc pl = m.map (bump id inc) := by
  unfold dictAdd
  rw [if_pos ((any_key_iff m id).2 h)]

theorem dictAdd_of_absent {m : List Result} {id : ℕ} (inc : ℚ) (pl : Payload)
    (h : id ∉ m.map Result.id) :
    dictAdd m id inc pl = m ++ [Result.mk id inc pl] := by
  unfold dictAdd
  rw [if_neg (fun hc => h ((any_key_iff m id).1 hc))]

theorem rrfProcess_fresh (k : ℚ) (l : List Result) :
    ∀ (rank : ℕ) (m : List Result),
    (l.map Result.id).Nodup →
    (∀ id ∈ l.map Result.id, id ∉ m.map Result.id) →
    rrfProcess k rank l m = m ++ rrfPass k rank l := by
  induction l with
  | nil => intro rank m _ _; simp [rrfProcess, rrfPass]
  | cons r rs ih =>
    intro rank m hnd hdisj
    simp only [rrfPass]
    simp only [rrfProcess]
    rw [dictAdd_of_absent _ _ (hdisj r.id (by simp))]
    rw [ih (rank + 1) _ (by simpa using (List.nodup_cons.1 (by simpa using hnd)).2) ?_]
    · rw [List.append_assoc]
      rfl
    · intro id hid
      rw [List.map_append]
      simp only [List.mem_append, List.map_cons, List.map_nil, List.mem_singleton]
      rintro (hm | hm)
      · exact hdisj id (by simp [hid]) hm
      · have hr : r.id ∉ rs.map Result.id :=
          (List.nodup_cons.1 (by simpa using hnd)).1
        exact hr (hm ▸ hid)

theorem bump_payload (id : ℕ) (inc : ℚ) (e : Result) :
    (bump id inc e).payload = e.payload := by
  unfold bump
  split <;> rfl

theorem keys_map_mk (m : List Result) (g : Result → ℚ) :
    ((m.map (fun e => Result.mk e.id (g e) e.payload)).map Result.id) =
      m.map Result.id := by
  rw [List.map_map]
  rfl

theorem rrfProcess_all_present (k : ℚ) (l : List Result) :
    ∀ (rank : ℕ) (m : List Result),
    (∀ r ∈ l, r.id ∈ m.map Result.id) →
    rrfProcess k rank l m =
      m.map (fun e => Result.mk e.id (e.score + rrfContrib k e.id rank l) e.payload) := by
  induction l with
  | nil =>
    intro rank m _
    have hfe : (fun e : Result =>
        Result.mk e.id (e.score + rrfContrib k e.id rank []) e.payload) =
        (fun e : Result => e) := by
      funext e
      simp [rrfContrib]
    simp [rrfProcess, hfe]
  | cons r rs ih =>
    intro rank m h
    simp only [rrfProcess]
    rw [dictAdd_of_present _ _ (h r (List.mem_cons_self r rs))]
    rw [ih (rank + 1) _ (by
      intro r' hr'
      rw [keys_map_bump]
      exact h r' (List.mem_cons_of_mem r hr'))]
    rw [List.map_map]
    apply List.map_congr_left
    intro e _
    simp only [Function.comp_apply, bump_id, bump_score, bump_payload]
    by_cases hb : e.id = r.id
    · rw [if_pos hb]
      simp only [rrfContrib, if_pos hb.symm]
      congr 1
      ring
    · rw [if_neg hb]
      simp only [rrfContrib]
      rw [if_neg (fun hc => hb hc.symm), zero_add]

theorem rrfContrib_of_mem_rrfPass (k : ℚ) (l : List Result)
    (hnd : (l.map Result.id).Nodup) :
    ∀ rank : ℕ, ∀ e ∈ rrfPass k rank l, rrfContrib k e.id rank l = e.score := by
  induction l with
  | nil => intro rank e he; cases he
  | cons r rs ih =>
    intro rank e he
    simp only [List.map_cons] at hnd
    rcases List.nodup_cons.1 hnd with ⟨hr, hrs⟩
    simp only [rrfPass] at he
    rcases List.mem_cons.1 he with rfl | he'
    · simp only [rrfContrib, if_pos rfl]
      rw [rrfContrib_eq_zero k r.id rs hr (rank + 1)]
      simp
    · have hid : e.id ∈ rs.map Result.id := by
        rw [← keys_rrfPass k rs (rank + 1)]
        exact List.mem_map.2 ⟨e, he', rfl⟩
      have hne : r.id ≠ e.id := fun hc => hr (hc ▸ hid)
      simp only [rrfContrib, if_neg hne]
      rw [ih hrs (rank + 1) e he']
      simp

theorem rrfDict_triple (k : ℚ) (l : List Result)
    (hnd : (l.map Result.id).Nodup) :
    rrfDict k l l l = (rrfPass k 1 l).map
      (fun e => Result.mk e.id (e.score + e.score + e.score) e.payload) := by
  have hCmem := rrfContrib_of_mem_rrfPass k l hnd 1
  have hkeys1 : ∀ r ∈ l, r.id ∈ (rrfPass k 1 l).map Result.id := by
    intro r hr
    rw [keys_rrfPass]
    exact List.mem_map.2 ⟨r, hr, rfl⟩
  have hkeys2 : ∀ r ∈ l, r.id ∈ ((rrfPass k 1 l).map
      (fun e => Result.mk e.id (e.score + rrfContrib k e.id 1 l) e.payload)).map
        Result.id := by
    intro r hr
    rw [keys_map_mk]
    exact hkeys1 r hr
  unfold rrfDict
  rw [rrfProcess_fresh k l 1 [] hnd (by simp), List.nil_append,
    rrfProcess_all_present k l 1 _ hkeys1,
    rrfProcess_all_present k l 1 _ hkeys2,
    List.map_map]
  apply List.map_congr_left
  intro e he
  simp only [Function.comp_apply]
  rw [hCmem e he]

theorem rrfPass_score_le (k : ℚ) (hk : 0 ≤ k) (l : List Result) :
    ∀ rank : ℕ, 1 ≤ rank → ∀ e ∈ rrfPass k rank l, e.score ≤ 1 / (k + rank) := by
  induction l with
  | nil => intro rank _ e he; cases he
  | cons r rs ih =>
    intro rank hrank e he
    simp only [rrfPass] at he
    rcases List.mem_cons.1 he with rfl | he'
    · exact le_of_eq rfl
    · have h1 := ih (rank + 1) (by omega) e he'
      have hpos : (0 : ℚ) < k + rank := by
        have hr1 : (1 : ℚ) ≤ (rank : ℚ) := by exact_mod_cast hrank
        linarith
      have h2 : 1 / (k + ((rank + 1 : ℕ) : ℚ)) ≤ 1 / (k + (rank : ℚ)) := by
        apply one_div_le_one_div_of_le hpos
        push_cast
        linarith
      exact le_trans h1 h2

theorem rrfPass_pairwise (k : ℚ) (hk : 0 ≤ k) (l : List Result) :
    ∀ rank : ℕ, 1 ≤ rank →
    (rrfPass k rank l).Pairwise (fun a b => b.score ≤ a.score) := by
  induction l with
  | nil => intro rank _; exact List.Pairwise.nil
  | cons r rs ih =>
    intro rank hrank
    simp only [rrfPass]
    refine List.Pairwise.cons ?_ (ih (rank + 1) (by omega))
    intro b hb
    have h1 := rrfPass_score_le k hk rs (rank + 1) (by omega) b hb
    have hpos : (0 : ℚ) < k + rank := by
      have hr1 : (1 : ℚ) ≤ (rank : ℚ) := by exact_mod_cast hrank
      linarith
    have h2 : 1 / (k + ((rank + 1 : ℕ) : ℚ)) ≤ 1 / (k + (rank : ℚ)) := by
      apply one_div_le_one_div_of_le hpos
      push_cast
      linarith
    exact le_trans h1 h2

theorem wContrib_eq_zero (id : ℕ) (w : ℚ) (entries : List Result)
    (h : id ∉ entries.map Result.id) : wContrib id w entries = 0 := by
  induction entries with
  | nil => rfl
  | cons e es ih =>
    have h1 : ¬ (e.id = id) := fun hc => h (by simp [hc])
    have h2 : id ∉ es.map Result.id := fun hc => h (by simp [hc])
    simp only [wContrib, if_neg h1, ih h2, add_zero]

theorem wContrib_of_mem (w : ℚ) (entries : List Result)
    (hnd : (entries.map Result.id).Nodup) :
    ∀ e ∈ entries, wContrib e.id w entries = e.score * w := by
  induction entries with
  | nil => intro e he; cases he
  | cons r rs ih =>
    intro e he
    simp only [List.map_cons] at hnd
    rcases List.nodup_cons.1 hnd with ⟨hr, hrs⟩
    rcases List.mem_cons.1 he with rfl | he'
    · simp [wContrib, wContrib_eq_zero e.id w rs hr]
    · have hid : e.id ∈ rs.map Result.id := List.mem_map.2 ⟨e, he', rfl⟩
      have hne : ¬ (r.id = e.id) := fun hc => hr (hc ▸ hid)
      simp only [wContrib, if_neg hne, zero_add]
      exact ih hrs e he'

theorem wAcc_cons (m : List Result) (e : Result) (es : List Result) (w : ℚ) :
    wAcc m (e :: es) w = wAcc (dictAdd m e.id (e.score * w) e.payload) es w := by
  simp [wAcc]

theorem wAcc_fresh (w : ℚ) (entries : List Result) :
    ∀ m : List Result,
    (entries.map Result.id).Nodup →
    (∀ id ∈ entries.map Result.id, id ∉ m.map Result.id) →
    wAcc m entries w =
      m ++ entries.map (fun e => Result.mk e.id (e.score * w) e.payload) := by
  induction entries with
  | nil => intro m _ _; simp [wAcc]
  | cons r rs ih =>
    intro m hnd hdisj
    rw [wAcc_cons, dictAdd_of_absent _ _ (hdisj r.id (by simp))]
    rw [ih _ (by simpa using (List.nodup_cons.1 (by simpa using hnd)).2) ?_]
    · rw [List.append_assoc]
      rfl
    · intro id hid
      rw [List.map_append]
      simp only [List.mem_append, List.map_cons, List.map_nil, List.mem_singleton]
      rintro (hm | hm)
      · exact hdisj id (by simp [hid]) hm
      · have hr : r.id ∉ rs.map Result.id :=
          (List.nodup_cons.1 (by simpa using hnd)).1
        exact hr (hm ▸ hid)

theorem wAcc_all_present (w : ℚ) (entries : List Result) :
    ∀ m : List Result,
    (∀ e ∈ entries, e.id ∈ m.map Result.id) →
    wAcc m entries w =
      m.map (fun x => Result.mk x.id (x.score + wContrib x.id w entries) x.payload) := by
  induction entries with
  | nil =>
    intro m _
    have hfe : (fun x : Result =>
        Result.mk x.id (x.score + wContrib x.id w []) x.payload) =
        (fun x : Result => x) := by
      funext x
      simp [wContrib]
    simp [wAcc, hfe]
  | cons r rs ih =>
    intro m h
    rw [wAcc_cons, dictAdd_of_present _ _ (h r (List.mem_cons_self r rs))]
    rw [ih _ (by
      intro r' hr'
      rw [keys_map_bump]
      exact h r' (List.mem_cons_of_mem r hr'))]
    rw [List.map_map]
    apply List.map_congr_left
    intro e _
    simp only [Function.comp_apply, bump_id, bump_score, bump_payload]
    by_cases hb : e.id = r.id
    · rw [if_pos hb]
      simp only [wContrib, if_pos hb.symm]
      congr 1
      rw [hb]
      ring
    · rw [if_neg hb]
      simp only [wContrib]
      rw [if_neg (fun hc => hb hc.symm), zero_add]

theorem wDict_triple (w : ℚ) (n : List Result)
    (hnd : (n.map Result.id).Nodup) :
    wAcc (wAcc (wAcc [] n w) n w) n w =
      n.map (fun e =>
        Result.mk e.id (e.score * w + e.score * w + e.score * w) e.payload) := by
  have hkeys1 : ∀ e ∈ n, e.id ∈ (n.map
      (fun e => Result.mk e.id (e.score * w) e.payload)).map Result.id := by
    intro e he
    rw [keys_map_mk]
    exact List.mem_map.2 ⟨e, he, rfl⟩
  rw [wAcc_fresh w n [] hnd (by simp), List.nil_append]
  rw [wAcc_all_present w n _ hkeys1]
  rw [wAcc_all_present w n _ (by
    intro e he
    rw [keys_map_mk, keys_map_mk]
    exact List.mem_map.2 ⟨e, he, rfl⟩)]
  rw [List.map_map, List.map_map]
  apply List.map_congr_left
  intro e he
  simp only [Function.comp_apply]
  rw [wContrib_of_mem w n hnd e he]

theorem keys_normalize_scores (l : List Result) :
    (normalize_scores l).map Result.id = l.map Result.id := by
  match l with
  | [] => rfl
  | r :: rs =>
    simp only [normalize_scores]
    rw [List.map_map]
    rfl

theorem normalize_scores_pairwise (l : List Result)
    (h : l.Pairwise (fun a b => b.score ≤ a.score)) :
    (normalize_scores l).Pairwise (fun a b => b.score ≤ a.score) := by
  match l, h with
  | [], _ => exact List.Pairwise.nil
  | r :: rs, h =>
    simp only [normalize_scores]
    have hmM : (rs.map Result.score).foldl min r.score ≤
        (rs.map Result.score).foldl max r.score :=
      le_trans (foldl_min_le_init r.score _) (foldl_max_init_le r.score _)
    by_cases hz : (rs.map Result.score).foldl max r.score -
        (rs.map Result.score).foldl min r.score = 0
    · simp only [if_pos hz]
      refine List.Pairwise.map _ ?_ h
      intro a b hab
      simp only [div_one]
      linarith
    · simp only [if_neg hz]
      have hpos : 0 < (rs.map Result.score).foldl max r.score -
          (rs.map Result.score).foldl min r.score :=
        lt_of_le_of_ne (by linarith) (Ne.symm hz)
      refine List.Pairwise.map _ ?_ h
      intro a b hab
      exact (div_le_div_iff_of_pos_right hpos).2 (by linarith)

/-- C6: round-trip — fusing one ranked list (distinct ids, strictly
descending scores) against itself as all three channels, with equal
non-negative channel weights for weighted fusion and a non-negative `k` for
RRF, reproduces that list's own candidate order truncated to the limit. -/
theorem fusion_roundtrip (k w : ℚ) (hk : 0 ≤ k) (hw : 0 ≤ w)
    (l : List Result) (top_k : ℕ)
    (hnd : (l.map Result.id).Nodup)
    (hstrict : l.Pairwise (fun a b => b.score < a.score)) :
    (weighted_fusion l l l [w, w, w] top_k).map Result.id =
      (l.map Result.id).take top_k ∧
    (reciprocal_rank_fusion k l l l top_k).map Result.id =
      (l.map Result.id).take top_k := by
  constructor
  · have hnk : ((normalize_scores l).map Result.id).Nodup := by
      rw [keys_normalize_scores]
      exact hnd
    have hnp : (normalize_scores l).Pairwise (fun a b => b.score ≤ a.score) :=
      normalize_scores_pairwise l (hstrict.imp le_of_lt)
    have hcomb : weighted_fusion l l l [w, w, w] top_k =
        ((wAcc (wAcc (wAcc [] (normalize_scores l) w) (normalize_scores l) w)
          (normalize_scores l) w).mergeSort scoreDesc).take top_k := rfl
    have hD := wDict_triple w (normalize_scores l) hnk
    have hP : ((normalize_scores l).map (fun e =>
        Result.mk e.id (e.score * w + e.score * w + e.score * w)
          e.payload)).Pairwise (fun a b => b.score ≤ a.score) := by
      refine List.Pairwise.map _ ?_ hnp
      intro a b hab
      simp only
      have := mul_le_mul_of_nonneg_right hab hw
      linarith
    have hms : ((normalize_scores l).map (fun e =>
        Result.mk e.id (e.score * w + e.score * w + e.score * w)
          e.payload)).mergeSort scoreDesc =
        (normalize_scores l).map (fun e =>
          Result.mk e.id (e.score * w + e.score * w + e.score * w) e.payload) :=
      List.mergeSort_of_sorted (hP.imp (fun h => by simpa [scoreDesc] using h))
    rw [hcomb, hD, hms, List.map_take, keys_map_mk, keys_normalize_scores]
  · have hD := rrfDict_triple k l hnd
    have hP : ((rrfPass k 1 l).map (fun e =>
        Result.mk e.id (e.score + e.score + e.score)
          e.payload)).Pairwise (fun a b => b.score ≤ a.score) := by
      refine List.Pairwise.map _ ?_ (rrfPass_pairwise k hk l 1 (le_refl 1))
      intro a b hab
      simp only
      linarith
    have hms : ((rrfPass k 1 l).map (fun e =>
        Result.mk e.id (e.score + e.score + e.score) e.payload)).mergeSort
          scoreDesc =
        (rrfPass k 1 l).map (fun e =>
          Result.mk e.id (e.score + e.score + e.score) e.payload) :=
      List.mergeSort_of_sorted (hP.imp (fun h => by simpa [scoreDesc] using h))
    have hout : reciprocal_rank_fusion k l l l top_k =
        ((rrfDict k l l l).mergeSort scoreDesc).take top_k := rfl
    rw [hout, hD, hms, List.map_take, keys_map_mk, keys_rrfPass]

theorem fusion_roundtrip_witness :
    ((0 : ℚ) ≤ 60 ∧ (0 : ℚ) ≤ 1 ∧
      (([⟨1, 9, emptyPayload⟩, ⟨2, 5, emptyPayload⟩,
        ⟨3, 2, emptyPayload⟩] : List Result).map Result.id).Nodup ∧
      ([⟨1, 9, emptyPayload⟩, ⟨2, 5, emptyPayload⟩,
        ⟨3, 2, emptyPayload⟩] : List Result).Pairwise
          (fun a b => b.score < a.score)) ∧
    (weighted_fusion [⟨1, 9, emptyPayload⟩, ⟨2, 5, emptyPayload⟩, ⟨3, 2, emptyPayload⟩]
        [⟨1, 9, emptyPayload⟩, ⟨2, 5, emptyPayload⟩, ⟨3, 2, emptyPayload⟩]
        [⟨1, 9, emptyPayload⟩, ⟨2, 5, emptyPayload⟩, ⟨3, 2, emptyPayload⟩]
        [1, 1, 1] 2).map Result.id =
      (([⟨1, 9, emptyPayload⟩, ⟨2, 5, emptyPayload⟩,
        ⟨3, 2, emptyPayload⟩] : List Result).map Result.id).take 2 ∧
    (reciprocal_rank_fusion 60 [⟨1, 9, emptyPayload⟩, ⟨2, 5, emptyPayload⟩, ⟨3, 2, emptyPayload⟩]
        [⟨1, 9, emptyPayload⟩, ⟨2, 5, emptyPayload⟩, ⟨3, 2, emptyPayload⟩]
        [⟨1, 9, emptyPayload⟩, ⟨2, 5, emptyPayload⟩, ⟨3, 2, emptyPayload⟩] 2).map
          Result.id =
      (([⟨1, 9, emptyPayload⟩, ⟨2, 5, emptyPayload⟩,
        ⟨3, 2, emptyPayload⟩] : List Result).map Result.id).take 2 := by
  have h := fusion_roundtrip 60 1 (by norm_num) (by norm_num)
    [⟨1, 9, emptyPayload⟩, ⟨2, 5, emptyPayload⟩, ⟨3, 2, emptyPayload⟩] 2
    (by decide) (by norm_num [List.pairwise_cons])
  exact ⟨⟨by norm_num, by norm_num, by decide,
    by norm_num [List.pairwise_cons]⟩, h.1, h.2⟩

end GraphRAG
